import Mathlib

/-!
Verification of the core of a groupcache-style library: the consistent-hash
ring (`consistenthash`), the LRU cache (`lru`), the duplicate-call
suppressor (`singleflight`), and the peer picker (`HTTPPool.PickPeer`).

Each Go function is embedded as an executable Lean definition; machine
integers (`uint32` hashes converted by Go's value-preserving `int(...)`)
are modelled as `Nat`, Go slices as `List`, and the Go maps as either
association functions (`Nat → Option String`) or the entry list itself.
-/

namespace consistenthash

/-- Models Go `type Hash func(data []byte) uint32`.  The byte slices hashed
by this package are always built from strings, so the model hashes strings;
`uint32` results embed into `Nat` (Go's `int(h)` of a `uint32` is
value-preserving on 64-bit targets). -/
abbrev Hash := String → Nat

/-- Go `type Map struct`: hash function, replica count, the sorted hash
ring `keys`, and the virtual-node-to-real-node map `hashMap`
(`map[int]string`, modelled as `Nat → Option String`; a missing key reads
as the zero value `""` at use sites, via `Option.getD`). -/
structure Map where
  hash : Hash
  replicas : Nat
  keys : List Nat
  hashMap : Nat → Option String

/-- Go `New(replicas int, fn Hash)`.  The `fn == nil` default (crc32) is
not modelled: the claims under study always supply a hash function. -/
def New (replicas : Nat) (fn : Hash) : Map :=
  { replicas := replicas, hash := fn, keys := [], hashMap := fun _ => none }

/-- Go `(m *Map) IsEmpty() bool`: `len(m.keys) == 0`. -/
def Map.IsEmpty (m : Map) : Bool :=
  m.keys.length == 0

/-- The body of the outer loop of Go `(m *Map) Add(keys ...string)` for a
single key: for each replica index `i` in `[0, replicas)`, append
`hash(itoa(i) + key)` to `m.keys` and bind it to `key` in `m.hashMap`. -/
def Map.addOne (m : Map) (key : String) : Map :=
  (List.range m.replicas).foldl
    (fun acc i =>
      let h := acc.hash (toString i ++ key)
      { acc with
        keys := acc.keys ++ [h]
        hashMap := fun x => if x = h then some key else acc.hashMap x })
    m

/-- Go `(m *Map) Add(keys ...string)`: insert all replicas of all keys,
then `sort.Ints(m.keys)`.  A sorted permutation of a multiset of naturals
is unique, so any correct sorting algorithm models `sort.Ints`;
`insertionSort` is used because it evaluates by kernel reduction. -/
def Map.Add (m : Map) (ks : List String) : Map :=
  let m' := ks.foldl Map.addOne m
  { m' with keys := List.insertionSort (· ≤ ·) m'.keys }

/-- Go's `sort.Search` loop body: `i, j` bounds, probe `(i+j)/2`, narrow
to the half where the least `true` index can live.  (Go computes the
midpoint as `int(uint(i+j) >> 1)`, which is `(i+j)/2` without overflow;
overflow is immaterial over `Nat`.) -/
def sortSearchGo (f : Nat → Bool) : Nat → Nat → Nat → Nat
  | 0, i, _ => i
  | fuel + 1, i, j =>
    if i < j then
      if f ((i + j) / 2) then sortSearchGo f fuel i ((i + j) / 2)
      else sortSearchGo f fuel ((i + j) / 2 + 1) j
    else i

/-- Go `sort.Search(n, f)`: binary search on `[0, n)`.  The loop is run on
structural fuel so that it evaluates by kernel reduction; `j - i` shrinks
by at least one per iteration, so fuel `n` always reaches the `i ≥ j`
exit and the fuel-0 fallback is dead code. -/
def sortSearch (n : Nat) (f : Nat → Bool) : Nat :=
  sortSearchGo f n 0 n

/-- Go `(m *Map) Get(key string)`: empty guard, hash the key, binary-search
the ring, wrap at the end, and read the owner out of `hashMap`.
`sort.Search` only probes indices `< len(m.keys)`, so `getD _ 0` never
takes its default on the probed range. -/
def Map.Get (m : Map) (key : String) : String :=
  if m.IsEmpty then ""
  else
    let h := m.hash key
    let idx := sortSearch m.keys.length (fun i => decide (m.keys.getD i 0 ≥ h))
    let idx' := if idx = m.keys.length then 0 else idx
    (m.hashMap (m.keys.getD idx' 0)).getD ""

/-- Written from the spec's words for `get(key)` (refinement target, to be
compared with `Map.Get` above): "if empty, return the empty string.
Compute h = H(key).  Binary-search for the least index i with
sequence[i] ≥ h; if i equals length, wrap to 0.  Return owner(sequence[i])."
The least index is expressed directly with `findIdx`. -/
def Map.specGet (m : Map) (key : String) : String :=
  if m.keys.length = 0 then ""
  else
    let h := m.hash key
    let i := m.keys.findIdx (fun k => decide (k ≥ h))
    let i' := if i = m.keys.length then 0 else i
    (m.hashMap (m.keys.getD i' 0)).getD ""

/-- The hash used by the spec's concrete ring scenario: parse the textual
input as a decimal number (the scenario only feeds it decimal strings). -/
def parseDec (s : String) : Nat :=
  s.data.foldl (fun acc c => acc * 10 + (c.toNat - 48)) 0

end consistenthash

namespace lru

/-- Go `type Cache struct`.  `MaxEntries` is the capacity (0 = unlimited);
the doubly linked list `ll` (front = most recently used) and the lookup
map `cache` are modelled together by one entry list, wrapped in `Option`:
`none` models the nil `ll`/`cache` of the zero value (and of a cleared
cache); `Add` lazily replaces `none` with the empty list exactly as the Go
code lazily allocates.  The `OnEvicted` callback is modelled by returning
the list of (key, value) pairs it would be invoked on. -/
structure Cache (K V : Type) where
  maxEntries : Nat
  data : Option (List (K × V))

variable {K V : Type} [DecidableEq K]

/-- Go `New(maxEntries int)`: allocated list and map. -/
def New (K V : Type) (maxEntries : Nat) : Cache K V :=
  { maxEntries := maxEntries, data := some [] }

/-- Lookup by key in the entry list, i.e. the read side of the Go map
`c.cache`: the list invariantly holds at most one entry per key, so
`find?` is that map access. -/
def lookup (l : List (K × V)) (k : K) : Option (K × V) :=
  l.find? (fun e => decide (e.1 = k))

/-- Go `(c *Cache) Len() int`. -/
def Cache.Len (c : Cache K V) : Nat :=
  match c.data with
  | none => 0
  | some l => l.length

/-- Whether a key is resident (the `_, ok := c.cache[key]` test). -/
def Cache.Contains (c : Cache K V) (k : K) : Bool :=
  match c.data with
  | none => false
  | some l => (lookup l k).isSome

/-- Go `(c *Cache) RemoveOldest()`: nil guard, take `ll.Back()`, and if
non-nil run `removeElement` on it — unlink from the list, delete its key
from the map, and fire the eviction callback with (key, value).  Returns
the updated cache and the callback events. -/
def Cache.RemoveOldest (c : Cache K V) : Cache K V × List (K × V) :=
  match c.data with
  | none => (c, [])
  | some l =>
    match l.getLast? with
    | none => (c, [])
    | some e => ({ c with data := some l.dropLast }, [e])

/-- Go `(c *Cache) Add(key, value)`: lazy allocation, hit path
(`MoveToFront` plus in-place value update), miss path (`PushFront`, then a
single `RemoveOldest` when a capacity is set and exceeded). -/
def Cache.Add (c : Cache K V) (k : K) (v : V) : Cache K V × List (K × V) :=
  let l := c.data.getD []
  match lookup l k with
  | some e =>
    ({ c with data := some ((e.1, v) :: l.eraseP (fun e' => decide (e'.1 = k))) }, [])
  | none =>
    let c' : Cache K V := { c with data := some ((k, v) :: l) }
    if c.maxEntries ≠ 0 ∧ ((k, v) :: l).length > c.maxEntries then
      c'.RemoveOldest
    else
      (c', [])

/-- Go `(c *Cache) Get(key)`: nil guard; on hit `MoveToFront` and return
(value, true), modelled as `some value` with the updated cache. -/
def Cache.Get (c : Cache K V) (k : K) : Option V × Cache K V :=
  match c.data with
  | none => (none, c)
  | some l =>
    match lookup l k with
    | some e => (some e.2, { c with data := some (e :: l.eraseP (fun e' => decide (e'.1 = k))) })
    | none => (none, c)

/-- Go `(c *Cache) Remove(key)`: nil guard; on hit `removeElement` the
entry the map points at (the unique entry with that key). -/
def Cache.Remove (c : Cache K V) (k : K) : Cache K V × List (K × V) :=
  match c.data with
  | none => (c, [])
  | some l =>
    match lookup l k with
    | some e => ({ c with data := some (l.eraseP (fun e' => decide (e'.1 = k))) }, [e])
    | none => (c, [])

/-- Go `(c *Cache) Clear()`: fire the callback for every resident entry,
then drop both structures (set to nil).  Go iterates the map in
unspecified order; the model reports the events in list order, which is
the same multiset. -/
def Cache.Clear (c : Cache K V) : Cache K V × List (K × V) :=
  ({ maxEntries := c.maxEntries, data := none }, c.data.getD [])

/-- Run a sequence of `Add` operations, accumulating eviction events. -/
def AddAll (c : Cache K V) (ops : List (K × V)) : Cache K V × List (K × V) :=
  ops.foldl (fun s op =>
    let r := s.1.Add op.1 op.2
    (r.1, s.2 ++ r.2)) (c, [])

/-- Keep, for each key, only its first entry (used on the reversed add
history: the surviving entry is the most recent one per key). -/
def dedupKeys : List (K × V) → List (K × V)
  | [] => []
  | e :: rest => e :: (dedupKeys rest).filter (fun e' => decide (e'.1 ≠ e.1))

/-- `l.take n` when a capacity `n > 0` is set, `l` itself when `n = 0`
(unlimited). -/
def trunc (n : Nat) (l : List (K × V)) : List (K × V) :=
  if n = 0 then l else l.take n

/-- No key occurs twice in the entry list. -/
def NodupKeys (l : List (K × V)) : Prop :=
  (l.map Prod.fst).Nodup

/-- The resident entries (empty when the structures are nil). -/
def Cache.entries (c : Cache K V) : List (K × V) :=
  c.data.getD []

/-- The cache component of `AddAll` (events dropped). -/
def applyAdds (c : Cache K V) (ops : List (K × V)) : Cache K V :=
  ops.foldl (fun acc op => (acc.Add op.1 op.2).1) c

end lru

namespace singleflight

/-!
The Go `singleflight.Group` is concurrent: `Do` takes a mutex, consults
the registry `g.m`, and either waits on an in-flight call's `WaitGroup`
or runs `fn` itself and broadcasts the result.  It is embedded as a
small-step state machine over explicit thread states; each atomic region
of `Do` (the code between lock release points / the barrier wait) is one
transition.  All threads call `Do` on the same key; thread `t`'s work
function is modelled as returning the outcome `f t` (an opaque value
standing for Go's `(interface{}, error)` pair), so counting executions
and comparing outcomes is exact.
-/

/-- Where a thread is inside `Do`:
* `notStarted` — before acquiring `g.mu` for the registry check;
* `waiting c` — released the lock, blocked in `c.wg.Wait()` on call `c`;
* `running c` — registered call `c`, released the lock, about to run `fn`;
* `cleanup c o` — `fn` returned `o` (stored in `c.val/c.err`,
  `c.wg.Done()` executed); about to re-lock and `delete(g.m, key)`;
* `finished o` — returned `(c.val, c.err) = o`. -/
inductive ThreadState (α : Type) where
  | notStarted
  | waiting (c : Nat)
  | running (c : Nat)
  | cleanup (c : Nat) (o : α)
  | finished (o : α)
deriving DecidableEq, Repr

/-- Global state: `calls c = none` while call `c` is in flight (its
`WaitGroup` counter is 1), `some o` once its outcome is stored and the
barrier released; `reg` is `g.m[key]`; `execCount` counts invocations of
the instrumented `fn`. -/
structure GState (α : Type) where
  calls : List (Option α)
  reg : Option Nat
  threads : List (ThreadState α)
  execCount : Nat
deriving DecidableEq, Repr

/-- Initial state: `n` callers poised to invoke `Do`, no call registered
(`g.m` empty for this key). -/
def init (α : Type) (n : Nat) : GState α :=
  { calls := [], reg := none, threads := List.replicate n .notStarted, execCount := 0 }

/-- One atomic step of thread `t` (no-op for an out-of-range thread, a
finished thread, or a thread blocked in `wg.Wait` on an incomplete call):
* `notStarted`: under `g.mu`, if `g.m[key]` exists go wait on it,
  else allocate a fresh call, `wg.Add(1)`, register it, release the lock;
* `running c`: `c.val, c.err = fn()`; `c.wg.Done()`;
* `cleanup c o`: re-lock, `delete(g.m, key)`, unlock, return `o`;
* `waiting c`: if the barrier is down (`calls c = some o`), return `o`. -/
def step {α : Type} (f : Nat → α) (s : GState α) (t : Nat) : GState α :=
  match s.threads[t]? with
  | none => s
  | some ts =>
    match ts with
    | .notStarted =>
      match s.reg with
      | some c => { s with threads := s.threads.set t (.waiting c) }
      | none =>
        { s with
          calls := s.calls ++ [none]
          reg := some s.calls.length
          threads := s.threads.set t (.running s.calls.length) }
    | .running c =>
      { s with
        calls := s.calls.set c (some (f t))
        threads := s.threads.set t (.cleanup c (f t))
        execCount := s.execCount + 1 }
    | .cleanup _ o =>
      { s with reg := none, threads := s.threads.set t (.finished o) }
    | .waiting c =>
      match s.calls.getD c none with
      | some o => { s with threads := s.threads.set t (.finished o) }
      | none => s
    | .finished _ => s

/-- Run a schedule (a list of thread ids, each performing its next atomic
step in order). -/
def run {α : Type} (f : Nat → α) (s : GState α) (trace : List Nat) : GState α :=
  trace.foldl (step f) s

/-- The concurrency side condition of the claim, checked against a
schedule: every caller performs its registry check while the flight is
still registered (or before any call exists) — i.e. the `N` invocations
overlap.  A schedule that lets a caller start only after the one
registered call has completed and been deleted is not `N` concurrent
invocations. -/
def okStep {α : Type} (s : GState α) (t : Nat) : Bool :=
  match s.threads[t]? with
  | some .notStarted => s.reg.isSome || s.calls.isEmpty
  | _ => true

/-- `okStep` holds at every point of the schedule. -/
def concOK {α : Type} (f : Nat → α) : GState α → List Nat → Bool
  | _, [] => true
  | s, t :: ts => okStep s t && concOK f (step f s t) ts

/-- Every thread has returned from `Do`. -/
def allFinished {α : Type} (s : GState α) : Bool :=
  s.threads.all fun ts =>
    match ts with
    | .finished _ => true
    | _ => false

/-- Reachability invariant of `n` concurrent `Do` calls on one key (under
`okStep`-schedules): either nothing has happened yet, or exactly one call
(call 0, owned by thread `t0`) ever exists, and the system is in one of
three phases — `fn` still running, `fn` done but the record still
registered, or the record deleted; every other thread is before its
registry check, parked on call 0's barrier, or finished with call 0's
outcome `f t0`. -/
def Inv {α : Type} (f : Nat → α) (n : Nat) (s : GState α) : Prop :=
  s.threads.length = n ∧
  ((s.calls = [] ∧ s.reg = none ∧ s.execCount = 0 ∧
      ∀ t, t < n → s.threads[t]? = some .notStarted) ∨
    ∃ t0, t0 < n ∧
      ((s.calls = [none] ∧ s.reg = some 0 ∧ s.execCount = 0 ∧
          s.threads[t0]? = some (.running 0) ∧
          ∀ t, t < n → t ≠ t0 →
            s.threads[t]? = some .notStarted ∨ s.threads[t]? = some (.waiting 0)) ∨
      (s.calls = [some (f t0)] ∧ s.reg = some 0 ∧ s.execCount = 1 ∧
          s.threads[t0]? = some (.cleanup 0 (f t0)) ∧
          ∀ t, t < n → t ≠ t0 →
            s.threads[t]? = some .notStarted ∨ s.threads[t]? = some (.waiting 0) ∨
              s.threads[t]? = some (.finished (f t0))) ∨
      (s.calls = [some (f t0)] ∧ s.reg = none ∧ s.execCount = 1 ∧
          s.threads[t0]? = some (.finished (f t0)) ∧
          ∀ t, t < n → t ≠ t0 →
            s.threads[t]? = some .notStarted ∨ s.threads[t]? = some (.waiting 0) ∨
              s.threads[t]? = some (.finished (f t0)))))

end singleflight

namespace groupcache

/-- Go `type HTTPPool struct`, restricted to the fields `PickPeer` reads:
`self` (this process's base URL) and the consistent-hash ring `peers`.
The `httpGetters` map is keyed by the peer name `PickPeer` extracts from
the ring, so the model returns the peer name itself in place of the
`ProtoGetter`. -/
structure HTTPPool where
  self : String
  peers : consistenthash.Map

/-- Go `(p *HTTPPool) PickPeer(key string) (ProtoGetter, bool)`: empty
ring → (nil, false); ring owner different from `self` → (that peer's
getter, true); otherwise (nil, false). -/
def HTTPPool.PickPeer (p : HTTPPool) (key : String) : Option String × Bool :=
  if p.peers.IsEmpty then (none, false)
  else if p.peers.Get key ≠ p.self then (some (p.peers.Get key), true)
  else (none, false)

end groupcache

/-! ## Helper lemmas -/

namespace consistenthash

theorem addOne_replicas_zero (m : Map) (h : m.replicas = 0) (k : String) :
    m.addOne k = m := by
  unfold Map.addOne
  rw [h]
  rfl

theorem foldl_addOne_replicas_zero (m : Map) (h : m.replicas = 0) (ks : List String) :
    ks.foldl Map.addOne m = m := by
  induction ks with
  | nil => rfl
  | cons a tl ih => simpa [List.foldl_cons, addOne_replicas_zero m h a] using ih

theorem add_replicas_zero_keys (f : Hash) (ks : List String) :
    ((New 0 f).Add ks).keys = [] := by
  unfold Map.Add
  rw [foldl_addOne_replicas_zero (New 0 f) rfl ks]
  rfl

theorem addOne_mapped (m : Map) (k : String)
    (h : ∀ x ∈ m.keys, (m.hashMap x).isSome = true) :
    ∀ x ∈ (m.addOne k).keys, ((m.addOne k).hashMap x).isSome = true := by
  unfold Map.addOne
  generalize List.range m.replicas = is
  induction is generalizing m with
  | nil => simpa using h
  | cons i tl ih =>
    simp only [List.foldl_cons]
    apply ih
    intro x hx
    rcases List.mem_append.mp hx with hx | hx
    · have hm := h x hx
      by_cases hc : x = m.hash (toString i ++ k) <;> simp [hc, hm]
    · simp only [List.mem_singleton] at hx
      simp [hx]

theorem foldl_addOne_mapped (ks : List String) (m : Map)
    (h : ∀ x ∈ m.keys, (m.hashMap x).isSome = true) :
    ∀ x ∈ (ks.foldl Map.addOne m).keys, ((ks.foldl Map.addOne m).hashMap x).isSome = true := by
  induction ks generalizing m with
  | nil => simpa using h
  | cons a tl ih =>
    simp only [List.foldl_cons]
    exact ih (m.addOne a) (addOne_mapped m a h)

theorem addOne_count (m : Map) (k : String) (x : Nat) :
    m.keys.count x ≤ (m.addOne k).keys.count x := by
  unfold Map.addOne
  generalize List.range m.replicas = is
  induction is generalizing m with
  | nil => simp
  | cons i tl ih =>
    simp only [List.foldl_cons]
    refine le_trans ?_ (ih _)
    simp [List.count_append]

theorem foldl_addOne_count (ks : List String) (m : Map) (x : Nat) :
    m.keys.count x ≤ (ks.foldl Map.addOne m).keys.count x := by
  induction ks generalizing m with
  | nil => simp
  | cons a tl ih =>
    simp only [List.foldl_cons]
    exact le_trans (addOne_count m a x) (ih _)

/-- Correctness of the embedded `sort.Search` loop: with enough fuel and a
monotone predicate, it lands on the least index of `[i, j)` where the
predicate holds (or on `j`). -/
theorem sortSearchGo_spec (f : Nat → Bool) :
    ∀ (fuel i j : Nat), j - i ≤ fuel → i ≤ j →
      (∀ a b, a ≤ b → b < j → f a = true → f b = true) →
      i ≤ sortSearchGo f fuel i j ∧ sortSearchGo f fuel i j ≤ j ∧
      (∀ k, i ≤ k → k < sortSearchGo f fuel i j → f k = false) ∧
      (sortSearchGo f fuel i j < j → f (sortSearchGo f fuel i j) = true) := by
  intro fuel
  induction fuel with
  | zero =>
    intro i j hfuel hij _
    have hij' : i = j := by omega
    subst hij'
    refine ⟨le_refl _, le_refl _, ?_, ?_⟩
    · intro k hk hk'
      simp only [sortSearchGo] at hk'
      omega
    · intro hlt
      simp only [sortSearchGo] at hlt
      omega
  | succ fuel ih =>
    intro i j hfuel hij mono
    by_cases hlt : i < j
    · have hmid₁ : i ≤ (i + j) / 2 := by omega
      have hmid₂ : (i + j) / 2 < j := by omega
      by_cases hf : f ((i + j) / 2) = true
      · have heq : sortSearchGo f (fuel + 1) i j = sortSearchGo f fuel i ((i + j) / 2) := by
          simp [sortSearchGo, hlt, hf]
        obtain ⟨h1, h2, h3, h4⟩ :=
          ih i ((i + j) / 2) (by omega) hmid₁
            (fun a b hab hb hfa => mono a b hab (lt_trans hb hmid₂) hfa)
        rw [heq]
        refine ⟨h1, le_of_lt (lt_of_le_of_lt h2 hmid₂), h3, ?_⟩
        intro _
        rcases lt_or_eq_of_le h2 with hc | hc
        · exact h4 hc
        · rw [hc]; exact hf
      · have heq : sortSearchGo f (fuel + 1) i j = sortSearchGo f fuel ((i + j) / 2 + 1) j := by
          simp [sortSearchGo, hlt, hf]
        obtain ⟨h1, h2, h3, h4⟩ := ih ((i + j) / 2 + 1) j (by omega) (by omega) mono
        rw [heq]
        refine ⟨by omega, h2, ?_, h4⟩
        intro k hk hk'
        by_cases hk2 : (i + j) / 2 + 1 ≤ k
        · exact h3 k hk2 hk'
        · cases hfk : f k with
          | false => rfl
          | true =>
            exact absurd (mono k ((i + j) / 2) (by omega) hmid₂ hfk) (by simp [hf])
    · have hij' : i = j := by omega
      subst hij'
      have heq : sortSearchGo f (fuel + 1) i i = i := by
        simp [sortSearchGo]
      rw [heq]
      exact ⟨le_refl _, le_refl _, fun k hk hk' => by omega, fun h => by omega⟩

/-- On a sorted ring, Go's binary search computes exactly the least index
whose hash is at least the probe (`List.findIdx`), falling to the length
when there is none. -/
theorem sortSearch_eq_findIdx (l : List Nat) (h : Nat) (hs : List.Sorted (· ≤ ·) l) :
    sortSearch l.length (fun i => decide (l.getD i 0 ≥ h))
      = l.findIdx (fun k => decide (k ≥ h)) := by
  have mono : ∀ a b, a ≤ b → b < l.length →
      (fun i => decide (l.getD i 0 ≥ h)) a = true →
      (fun i => decide (l.getD i 0 ≥ h)) b = true := by
    intro a b hab hb hfa
    have ha : a < l.length := lt_of_le_of_lt hab hb
    simp only [decide_eq_true_eq] at hfa ⊢
    rw [List.getD_eq_getElem l 0 ha] at hfa
    rw [List.getD_eq_getElem l 0 hb]
    rcases lt_or_eq_of_le hab with hab' | hab'
    · have := (List.pairwise_iff_getElem.mp hs) a b ha hb hab'
      omega
    · subst hab'; exact hfa
  obtain ⟨-, h2, h3, h4⟩ :=
    sortSearchGo_spec (fun i => decide (l.getD i 0 ≥ h)) l.length 0 l.length
      (by omega) (Nat.zero_le _) mono
  have hq := @List.findIdx_le_length _ (fun k => decide (k ≥ h)) l
  simp only [sortSearch]
  rcases Nat.lt_trichotomy (sortSearchGo (fun i => decide (l.getD i 0 ≥ h)) l.length 0 l.length)
      (l.findIdx (fun k => decide (k ≥ h))) with hc | hc | hc
  · exfalso
    have hr : sortSearchGo (fun i => decide (l.getD i 0 ≥ h)) l.length 0 l.length < l.length :=
      lt_of_lt_of_le hc hq
    have := h4 hr
    simp only [decide_eq_true_eq] at this
    rw [List.getD_eq_getElem l 0 hr] at this
    have hfalse := List.not_of_lt_findIdx hc
    simp only [decide_eq_false_iff_not] at hfalse
    omega
  · exact hc
  · exfalso
    have hqlt : l.findIdx (fun k => decide (k ≥ h)) < l.length := lt_of_lt_of_le hc h2
    have htrue := @List.findIdx_getElem _ _ _ hqlt
    simp only [decide_eq_true_eq] at htrue
    have hfalse := h3 (l.findIdx (fun k => decide (k ≥ h))) (Nat.zero_le _) hc
    simp only [decide_eq_false_iff_not] at hfalse
    rw [List.getD_eq_getElem l 0 hqlt] at hfalse
    omega

end consistenthash

/-! ## Claim theorems -/

/-- C6: with H = parse-decimal and R = 3, adding "6","4","2" yields the
hash sequence [2,4,6,12,14,16,22,24,26]; get("2")="2", get("11")="2",
get("23")="4", get("27")="2" (wrap); after also adding "8",
get("27")="8". -/
theorem ring_concrete_scenarios :
    (consistenthash.Map.Add (consistenthash.New 3 consistenthash.parseDec) ["6", "4", "2"]).keys
        = [2, 4, 6, 12, 14, 16, 22, 24, 26] ∧
    (consistenthash.Map.Add (consistenthash.New 3 consistenthash.parseDec) ["6", "4", "2"]).Get "2" = "2" ∧
    (consistenthash.Map.Add (consistenthash.New 3 consistenthash.parseDec) ["6", "4", "2"]).Get "11" = "2" ∧
    (consistenthash.Map.Add (consistenthash.New 3 consistenthash.parseDec) ["6", "4", "2"]).Get "23" = "4" ∧
    (consistenthash.Map.Add (consistenthash.New 3 consistenthash.parseDec) ["6", "4", "2"]).Get "27" = "2" ∧
    (consistenthash.Map.Add
      (consistenthash.Map.Add (consistenthash.New 3 consistenthash.parseDec) ["6", "4", "2"])
      ["8"]).Get "27" = "8" := by
  decide

/-- C7: PickPeer returns found=false exactly when the ring is empty or the
ring assigns the key to this process; and with R = 0 every Add leaves the
ring empty, so PickPeer always answers (nil, false) = "local". -/
theorem pickPeer_found_iff (p : groupcache.HTTPPool) (key self' key' : String)
    (f : consistenthash.Hash) (ks : List String) :
    ((p.PickPeer key).2 = false ↔ (p.peers.IsEmpty = true ∨ p.peers.Get key = p.self)) ∧
    groupcache.HTTPPool.PickPeer ⟨self', (consistenthash.New 0 f).Add ks⟩ key' = (none, false) := by
  constructor
  · unfold groupcache.HTTPPool.PickPeer
    by_cases he : p.peers.IsEmpty
    · simp [he]
    · by_cases hs : p.peers.Get key = p.self <;> simp [he, hs]
  · have hempty : ((consistenthash.New 0 f).Add ks).IsEmpty = true := by
      unfold consistenthash.Map.IsEmpty
      rw [consistenthash.add_replicas_zero_keys]
      rfl
    unfold groupcache.HTTPPool.PickPeer
    simp [hempty]

/-- C8 counterexample: with a colliding hash function the ring's sequence
is not strictly sorted — replicas 2 of member "a" under the constant hash
both land on 5, so the sequence is [5,5]. -/
theorem ring_strictly_sorted_cex :
    ((consistenthash.New 2 (fun _ => 5)).Add ["a"]).keys = [5, 5] ∧
    ¬ List.Sorted (· < ·) ((consistenthash.New 2 (fun _ => 5)).Add ["a"]).keys := by
  constructor
  · decide
  · intro h
    rw [show ((consistenthash.New 2 (fun _ => 5)).Add ["a"]).keys = [5, 5] by decide] at h
    simp [List.Sorted] at h

/-- C2: on a sorted ring (the invariant `Add` establishes), `Get` returns
the empty string when the ring is empty, and otherwise the owner bound to
the hash at the least index `i` with `sequence[i] ≥ H(key)`, wrapping the
index to 0 when no such index exists — i.e. `Get` coincides with the
spec-level `specGet` written with `findIdx`. -/
theorem ring_get_matches_spec (m : consistenthash.Map) (key : String)
    (hs : List.Sorted (· ≤ ·) m.keys) :
    m.Get key = m.specGet key := by
  have hsf := consistenthash.sortSearch_eq_findIdx m.keys (m.hash key) hs
  unfold consistenthash.Map.Get consistenthash.Map.specGet consistenthash.Map.IsEmpty
  by_cases he : m.keys.length = 0
  · simp [he]
  · simp only [beq_iff_eq, if_neg he]
    rw [hsf]

/-- Witness for C2 at the spec's concrete ring. -/
theorem ring_get_matches_spec_witness :
    List.Sorted (· ≤ ·)
      ((consistenthash.New 3 consistenthash.parseDec).Add ["6", "4", "2"]).keys ∧
    ((consistenthash.New 3 consistenthash.parseDec).Add ["6", "4", "2"]).Get "27"
      = ((consistenthash.New 3 consistenthash.parseDec).Add ["6", "4", "2"]).specGet "27" :=
  ⟨by decide, ring_get_matches_spec _ "27" (by decide)⟩

/-- C8 (amended): after `Add` the sequence is sorted (non-strictly:
duplicate hashes occur exactly at hash collisions, which the code then
keeps side by side, so strictness fails in general — see the
counterexample); every hash present in the sequence is bound to an owner
in the map; and the multiset of hashes only grows. -/
theorem ring_add_sorted_mapped_grow (m : consistenthash.Map) (ks : List String)
    (h : ∀ x ∈ m.keys, (m.hashMap x).isSome = true) :
    List.Sorted (· ≤ ·) (m.Add ks).keys ∧
    (∀ x ∈ (m.Add ks).keys, ((m.Add ks).hashMap x).isSome = true) ∧
    (∀ x, m.keys.count x ≤ (m.Add ks).keys.count x) := by
  unfold consistenthash.Map.Add
  refine ⟨List.sorted_insertionSort (· ≤ ·) _, ?_, ?_⟩
  · intro x hx
    have hx' : x ∈ (ks.foldl consistenthash.Map.addOne m).keys :=
      ((List.perm_insertionSort (· ≤ ·) _).mem_iff).mp hx
    exact consistenthash.foldl_addOne_mapped ks m h x hx'
  · intro x
    have hcnt := (List.perm_insertionSort (· ≤ ·)
      (ks.foldl consistenthash.Map.addOne m).keys).count_eq x
    rw [hcnt]
    exact consistenthash.foldl_addOne_count ks m x

/-- Witness for C8 (amended) from the empty ring. -/
theorem ring_add_sorted_mapped_grow_witness :
    (∀ x ∈ (consistenthash.New 3 consistenthash.parseDec).keys,
        ((consistenthash.New 3 consistenthash.parseDec).hashMap x).isSome = true) ∧
    (List.Sorted (· ≤ ·) ((consistenthash.New 3 consistenthash.parseDec).Add ["6", "4"]).keys ∧
      (∀ x ∈ ((consistenthash.New 3 consistenthash.parseDec).Add ["6", "4"]).keys,
        (((consistenthash.New 3 consistenthash.parseDec).Add ["6", "4"]).hashMap x).isSome = true) ∧
      (∀ x, (consistenthash.New 3 consistenthash.parseDec).keys.count x
        ≤ ((consistenthash.New 3 consistenthash.parseDec).Add ["6", "4"]).keys.count x)) :=
  ⟨by decide, ring_add_sorted_mapped_grow (consistenthash.New 3 consistenthash.parseDec)
    ["6", "4"] (by decide)⟩

namespace lru

theorem find?_eraseP_of_ne {α : Type} (p q : α → Bool) (l : List α)
    (h : ∀ x, p x = true → q x = false) :
    (l.eraseP p).find? q = l.find? q := by
  induction l with
  | nil => rfl
  | cons a tl ih =>
    by_cases hpa : p a = true
    · rw [List.eraseP_cons_of_pos hpa]
      rw [List.find?_cons_of_neg tl (by simp [h a hpa])]
    · rw [List.eraseP_cons_of_neg hpa]
      by_cases hqa : q a = true
      · rw [List.find?_cons_of_pos _ hqa, List.find?_cons_of_pos _ hqa]
      · rw [List.find?_cons_of_neg _ hqa, List.find?_cons_of_neg _ hqa]
        exact ih

end lru

/-- C10: every LRU operation is total on a cache whose internal structures
are nil: Get returns (nil, false) leaving the cache alone, Remove and
RemoveOldest are no-ops, Len is 0, Add lazily allocates (it behaves
exactly as on an allocated empty cache); and Remove of an absent key is a
no-op on any cache. -/
theorem lru_zero_value_total {K V : Type} [DecidableEq K] (n : Nat) (k : K) (v : V)
    (c : lru.Cache K V) (h : c.Contains k = false) :
    lru.Cache.Get (⟨n, none⟩ : lru.Cache K V) k = (none, ⟨n, none⟩) ∧
    lru.Cache.Remove (⟨n, none⟩ : lru.Cache K V) k = (⟨n, none⟩, []) ∧
    lru.Cache.RemoveOldest (⟨n, none⟩ : lru.Cache K V) = (⟨n, none⟩, []) ∧
    lru.Cache.Len (⟨n, none⟩ : lru.Cache K V) = 0 ∧
    lru.Cache.Add (⟨n, none⟩ : lru.Cache K V) k v
      = lru.Cache.Add (⟨n, some []⟩ : lru.Cache K V) k v ∧
    c.Remove k = (c, []) := by
  refine ⟨rfl, rfl, rfl, rfl, rfl, ?_⟩
  unfold lru.Cache.Contains at h
  unfold lru.Cache.Remove
  cases hd : c.data with
  | none => rfl
  | some l =>
    rw [hd] at h
    dsimp only at h
    have hlk : lru.lookup l k = none := Option.not_isSome_iff_eq_none.mp (by simp [h])
    dsimp only
    rw [hlk]

/-- Witness for C10 on a concrete populated cache missing the key "x". -/
theorem lru_zero_value_total_witness :
    (lru.Cache.Contains (⟨2, some [("A", 1)]⟩ : lru.Cache String Nat) "x" = false) ∧
    (lru.Cache.Get (⟨3, none⟩ : lru.Cache String Nat) "x" = (none, ⟨3, none⟩) ∧
      lru.Cache.Remove (⟨3, none⟩ : lru.Cache String Nat) "x" = (⟨3, none⟩, []) ∧
      lru.Cache.RemoveOldest (⟨3, none⟩ : lru.Cache String Nat) = (⟨3, none⟩, []) ∧
      lru.Cache.Len (⟨3, none⟩ : lru.Cache String Nat) = 0 ∧
      lru.Cache.Add (⟨3, none⟩ : lru.Cache String Nat) "x" 1
        = lru.Cache.Add (⟨3, some []⟩ : lru.Cache String Nat) "x" 1 ∧
      lru.Cache.Remove (⟨2, some [("A", 1)]⟩ : lru.Cache String Nat) "x"
        = (⟨2, some [("A", 1)]⟩, [])) :=
  ⟨by decide, lru_zero_value_total 3 "x" 1 (⟨2, some [("A", 1)]⟩ : lru.Cache String Nat) (by decide)⟩

/-- C9: Add on a key already present replaces its value, moves the entry
to the front, fires no eviction, and is a frame for everything else: no
events, same length, same capacity, and every other key's lookup is
untouched — regardless of how the length compares with MaxEntries. -/
theorem lru_add_present_frame {K V : Type} [DecidableEq K] (c : lru.Cache K V) (k : K) (v : V)
    (h : c.Contains k = true) :
    (c.Add k v).2 = [] ∧
    (c.Add k v).1.Len = c.Len ∧
    (c.Add k v).1.entries.head? = some (k, v) ∧
    (∀ k', k' ≠ k → lru.lookup (c.Add k v).1.entries k' = lru.lookup c.entries k') ∧
    (c.Add k v).1.maxEntries = c.maxEntries := by
  unfold lru.Cache.Contains at h
  cases hd : c.data with
  | none => rw [hd] at h; simp at h
  | some l =>
    rw [hd] at h
    dsimp only at h
    obtain ⟨e, he⟩ := Option.isSome_iff_exists.mp h
    have hek : e.1 = k := by
      have := List.find?_some he
      simpa using this
    have hmem : e ∈ l := List.mem_of_find?_eq_some he
    have hlen : (l.eraseP (fun e' => decide (e'.1 = k))).length = l.length - 1 :=
      List.length_eraseP_of_mem hmem (by simp [hek])
    have hpos : 0 < l.length := List.length_pos_of_mem hmem
    have hadd : c.Add k v
        = ({ maxEntries := c.maxEntries,
             data := some ((e.1, v) :: l.eraseP (fun e' => decide (e'.1 = k))) }, []) := by
      unfold lru.Cache.Add
      rw [hd]
      dsimp only [Option.getD_some]
      rw [show lru.lookup l k = some e from he]
    rw [hadd]
    refine ⟨rfl, ?_, ?_, ?_, rfl⟩
    · unfold lru.Cache.Len
      rw [hd]
      dsimp only
      rw [List.length_cons, hlen]
      omega
    · unfold lru.Cache.entries
      simp [hek]
    · intro k' hk'
      have hne : ¬(decide ((e.1, v).1 = k') = true) := by
        simp only [decide_eq_true_eq]
        rw [hek]
        exact fun hc => hk' hc.symm
      unfold lru.Cache.entries lru.lookup
      rw [hd]
      dsimp only [Option.getD_some]
      rw [@List.find?_cons_of_neg _ (fun e => decide (e.1 = k')) (e.1, v)
        (List.eraseP (fun e' => decide (e'.1 = k)) l) hne]
      refine lru.find?_eraseP_of_ne _ _ l (fun x hx => ?_)
      simp only [decide_eq_true_eq] at hx
      simp only [decide_eq_false_iff_not]
      rw [hx]
      exact fun hc => hk' hc.symm

/-- Witness for C9: updating the resident key "A" in a full cache. -/
theorem lru_add_present_frame_witness :
    (lru.Cache.Contains (⟨2, some [("B", 2), ("A", 1)]⟩ : lru.Cache String Nat) "A" = true) ∧
    (((⟨2, some [("B", 2), ("A", 1)]⟩ : lru.Cache String Nat).Add "A" 9).2 = [] ∧
      ((⟨2, some [("B", 2), ("A", 1)]⟩ : lru.Cache String Nat).Add "A" 9).1.Len
        = (⟨2, some [("B", 2), ("A", 1)]⟩ : lru.Cache String Nat).Len ∧
      ((⟨2, some [("B", 2), ("A", 1)]⟩ : lru.Cache String Nat).Add "A" 9).1.entries.head?
        = some ("A", 9) ∧
      (∀ k', k' ≠ "A" →
        lru.lookup ((⟨2, some [("B", 2), ("A", 1)]⟩ : lru.Cache String Nat).Add "A" 9).1.entries k'
          = lru.lookup (⟨2, some [("B", 2), ("A", 1)]⟩ : lru.Cache String Nat).entries k') ∧
      ((⟨2, some [("B", 2), ("A", 1)]⟩ : lru.Cache String Nat).Add "A" 9).1.maxEntries
        = (⟨2, some [("B", 2), ("A", 1)]⟩ : lru.Cache String Nat).maxEntries) :=
  ⟨by decide, lru_add_present_frame (⟨2, some [("B", 2), ("A", 1)]⟩ : lru.Cache String Nat) "A" 9 (by decide)⟩

namespace lru

variable {K V : Type} [DecidableEq K]

omit [DecidableEq K] in
theorem trunc_sublist (C : Nat) (l : List (K × V)) : (trunc C l).Sublist l := by
  unfold trunc
  split
  · exact List.Sublist.refl l
  · exact List.take_sublist C l

omit [DecidableEq K] in
theorem nodupKeys_of_sublist {l₁ l₂ : List (K × V)} (h : l₁.Sublist l₂)
    (h₂ : NodupKeys l₂) : NodupKeys l₁ :=
  (h.map Prod.fst).nodup h₂

theorem nodupKeys_dedupKeys (l : List (K × V)) : NodupKeys (dedupKeys l) := by
  induction l with
  | nil => simp [dedupKeys, NodupKeys]
  | cons e tl ih =>
    simp only [dedupKeys, NodupKeys, List.map_cons, List.nodup_cons]
    constructor
    · intro hmem
      obtain ⟨x, hx, hfst⟩ := List.mem_map.mp hmem
      have hne := List.of_mem_filter hx
      simp only [decide_eq_true_eq] at hne
      exact hne hfst
    · exact nodupKeys_of_sublist (List.filter_sublist _) ih

theorem eraseP_eq_filter_of_nodupKeys (l : List (K × V)) (k : K) (h : NodupKeys l) :
    l.eraseP (fun e => decide (e.1 = k)) = l.filter (fun e => decide (e.1 ≠ k)) := by
  induction l with
  | nil => rfl
  | cons a tl ih =>
    simp only [NodupKeys, List.map_cons, List.nodup_cons] at h
    obtain ⟨ha, htl⟩ := h
    by_cases hak : a.1 = k
    · rw [List.eraseP_cons_of_pos (by simp [hak])]
      rw [List.filter_cons_of_neg (by simp [hak])]
      symm
      rw [List.filter_eq_self]
      intro x hx
      simp only [decide_eq_true_eq]
      intro hxk
      exact ha (List.mem_map.mpr ⟨x, hx, by rw [hxk, hak]⟩)
    · rw [List.eraseP_cons_of_neg (by simp [hak]), List.filter_cons_of_pos (by simp [hak])]
      rw [ih htl]

theorem filter_length_of_key_mem (l : List (K × V)) (k : K) (h : NodupKeys l)
    (hk : k ∈ l.map Prod.fst) :
    (l.filter (fun e => decide (e.1 ≠ k))).length = l.length - 1 := by
  obtain ⟨e, he, hek⟩ := List.mem_map.mp hk
  rw [← eraseP_eq_filter_of_nodupKeys l k h]
  exact List.length_eraseP_of_mem he (by simp [hek])

theorem filter_take_of_mem (k : K) (C' : Nat) (D : List (K × V)) (hD : NodupKeys D)
    (hk : k ∈ (D.take (C' + 1)).map Prod.fst) :
    (D.take (C' + 1)).filter (fun e => decide (e.1 ≠ k))
      = (D.filter (fun e => decide (e.1 ≠ k))).take C' := by
  have hTnodup : NodupKeys (D.take (C' + 1)) :=
    nodupKeys_of_sublist (List.take_sublist _ _) hD
  have hlenT := filter_length_of_key_mem (D.take (C' + 1)) k hTnodup hk
  rcases le_or_lt (C' + 1) D.length with hD1 | hD1
  · have hlen : (D.take (C' + 1)).length = C' + 1 := by
      rw [List.length_take]; omega
    conv_rhs => rw [← List.take_append_drop (C' + 1) D, List.filter_append]
    rw [List.take_append_of_le_length (by omega)]
    symm
    apply List.take_of_length_le
    omega
  · have hDD : D.take (C' + 1) = D := List.take_of_length_le (by omega)
    rw [hDD] at hlenT hk ⊢
    symm
    apply List.take_of_length_le
    omega

theorem filter_take_of_not_mem (k : K) (C' : Nat) (D : List (K × V))
    (hk : k ∉ (D.take (C' + 1)).map Prod.fst) :
    (D.filter (fun e => decide (e.1 ≠ k))).take C' = D.take C' := by
  have hT : (D.take (C' + 1)).filter (fun e => decide (e.1 ≠ k)) = D.take (C' + 1) := by
    rw [List.filter_eq_self]
    intro x hx
    simp only [decide_eq_true_eq]
    intro hxk
    exact hk (List.mem_map.mpr ⟨x, hx, hxk⟩)
  rcases le_or_lt (C' + 1) D.length with hD1 | hD1
  · have hlen : (D.take (C' + 1)).length = C' + 1 := by
      rw [List.length_take]; omega
    conv_lhs => rw [← List.take_append_drop (C' + 1) D, List.filter_append, hT]
    rw [List.take_append_of_le_length (by omega)]
    rw [List.take_take]
    congr 1
    omega
  · have hDD : D.take (C' + 1) = D := List.take_of_length_le (by omega)
    rw [hDD] at hT
    rw [hT]

end lru

namespace lru

variable {K V : Type} [DecidableEq K]

omit [DecidableEq K] in
theorem trunc_zero (l : List (K × V)) : trunc 0 l = l := by
  unfold trunc
  simp

omit [DecidableEq K] in
theorem trunc_succ (C' : Nat) (l : List (K × V)) : trunc (C' + 1) l = l.take (C' + 1) := by
  unfold trunc
  simp

/-- One `Add` step, stated on the canonical shape `trunc C D` with `D` the
most-recent-first dedup of the history: the new history's canonical shape
is reached. -/
theorem add_trunc_step (C : Nat) (k : K) (v : V) (D : List (K × V)) (hD : NodupKeys D) :
    (Cache.Add ⟨C, some (trunc C D)⟩ k v).1
      = ⟨C, some (trunc C ((k, v) :: D.filter (fun e => decide (e.1 ≠ k))))⟩ := by
  cases C with
  | zero =>
    rw [trunc_zero, trunc_zero]
    unfold Cache.Add
    dsimp only [Option.getD_some]
    cases hfind : lookup D k with
    | some e =>
      dsimp only
      have hek : e.1 = k := by simpa using List.find?_some hfind
      have hmem : e ∈ D := List.mem_of_find?_eq_some hfind
      rw [eraseP_eq_filter_of_nodupKeys D k hD, hek]
    | none =>
      dsimp only
      unfold lookup at hfind
      have hfil : D.filter (fun e => decide (e.1 ≠ k)) = D := by
        rw [List.filter_eq_self]
        intro x hx
        have := List.find?_eq_none.mp hfind x hx
        simpa using this
      rw [if_neg (by simp)]
      rw [hfil]
  | succ C' =>
    rw [trunc_succ, trunc_succ]
    unfold Cache.Add
    dsimp only [Option.getD_some]
    cases hfind : lookup (D.take (C' + 1)) k with
    | some e =>
      dsimp only
      have hek : e.1 = k := by simpa using List.find?_some hfind
      have hmem : e ∈ D.take (C' + 1) := List.mem_of_find?_eq_some hfind
      have hkmem : k ∈ (D.take (C' + 1)).map Prod.fst := List.mem_map.mpr ⟨e, hmem, hek⟩
      have hTnodup : NodupKeys (D.take (C' + 1)) :=
        nodupKeys_of_sublist (List.take_sublist _ _) hD
      rw [eraseP_eq_filter_of_nodupKeys _ k hTnodup, hek]
      rw [List.take_succ_cons]
      rw [filter_take_of_mem k C' D hD hkmem]
    | none =>
      dsimp only
      unfold lookup at hfind
      have hknot : k ∉ (D.take (C' + 1)).map Prod.fst := by
        intro hmem
        obtain ⟨e, he, hek⟩ := List.mem_map.mp hmem
        have := List.find?_eq_none.mp hfind e he
        simp [hek] at this
      rcases le_or_lt (C' + 1) D.length with hlen | hlen
      · have hTlen : (D.take (C' + 1)).length = C' + 1 := by
          rw [List.length_take]; omega
        split
        · -- over capacity: the single RemoveOldest drops the list tail
          unfold Cache.RemoveOldest
          dsimp only
          cases hlast : ((k, v) :: D.take (C' + 1)).getLast? with
          | none => exact absurd (List.getLast?_eq_none_iff.mp hlast) (by simp)
          | some x =>
            dsimp only
            have hnil : D.take (C' + 1) ≠ [] := by
              intro hnil
              rw [hnil] at hTlen
              simp at hTlen
            rw [List.dropLast_cons_of_ne_nil hnil]
            rw [List.take_succ_cons]
            rw [filter_take_of_not_mem k C' D hknot]
            rw [List.dropLast_eq_take, hTlen]
            simp only [Nat.add_sub_cancel]
            rw [List.take_take]
            have hmin : C' ⊓ (C' + 1) = C' := by omega
            rw [hmin]
        · -- contradiction: the capacity test cannot fail here
          rename_i hcond
          exfalso
          apply hcond
          refine ⟨by omega, ?_⟩
          simp only [List.length_cons, hTlen]
          omega
      · have hDD : D.take (C' + 1) = D := List.take_of_length_le (by omega)
        split
        · rename_i hcond
          exfalso
          simp only [List.length_cons, List.length_take] at hcond
          omega
        · dsimp only
          rw [List.take_succ_cons, hDD]
          have hfil : D.filter (fun e => decide (e.1 ≠ k)) = D := by
            rw [List.filter_eq_self]
            intro x hx
            simp only [decide_eq_true_eq]
            intro hxk
            rw [hDD] at hknot
            exact hknot (List.mem_map.mpr ⟨x, hx, hxk⟩)
          rw [hfil, List.take_of_length_le (by omega)]

end lru

namespace lru

variable {K V : Type} [DecidableEq K]

theorem addAll_foldl_fst (ops : List (K × V)) : ∀ (c : Cache K V) (evs : List (K × V)),
    (ops.foldl (fun s op =>
      let r := s.1.Add op.1 op.2
      (r.1, s.2 ++ r.2)) (c, evs)).1 = applyAdds c ops := by
  induction ops with
  | nil => intro c evs; rfl
  | cons op tl ih =>
    intro c evs
    simp only [List.foldl_cons]
    simp only [applyAdds, List.foldl_cons]
    exact ih _ _

theorem addAll_fst (c : Cache K V) (ops : List (K × V)) :
    (AddAll c ops).1 = applyAdds c ops := by
  unfold AddAll
  exact addAll_foldl_fst ops c []

/-- The canonical shape of a cache built by a sequence of adds from a
fresh cache of capacity `C`: the resident list is the most-recent-first
per-key dedup of the history, truncated to `C` when a capacity is set. -/
theorem applyAdds_char (C : Nat) (ops : List (K × V)) :
    applyAdds (New K V C) ops = ⟨C, some (trunc C (dedupKeys ops.reverse))⟩ := by
  induction ops using List.reverseRecOn with
  | nil =>
    have h0 : trunc C (dedupKeys (List.reverse ([] : List (K × V)))) = [] := by
      unfold trunc dedupKeys
      split <;> simp
    rw [h0]
    rfl
  | append_singleton ops op ih =>
    obtain ⟨k, v⟩ := op
    have hfold : applyAdds (New K V C) (ops ++ [(k, v)])
        = ((applyAdds (New K V C) ops).Add k v).1 := by
      unfold applyAdds
      rw [List.foldl_append]
      rfl
    rw [hfold, ih]
    rw [List.reverse_append]
    simp only [List.reverse_cons, List.reverse_nil, List.nil_append, List.singleton_append]
    exact add_trunc_step C k v (dedupKeys ops.reverse) (nodupKeys_dedupKeys _)

end lru

/-- C3: from a fresh cache of capacity C > 0, after any sequence of adds
the length never exceeds C, and the C most recently accessed keys — the
first C entries of the most-recent-first dedup of the history — are all
resident. -/
theorem lru_add_capacity_bound {K V : Type} [DecidableEq K] (C : Nat) (hC : 0 < C)
    (ops : List (K × V)) :
    (lru.AddAll (lru.New K V C) ops).1.Len ≤ C ∧
    ∀ e ∈ (lru.dedupKeys ops.reverse).take C,
      (lru.AddAll (lru.New K V C) ops).1.Contains e.1 = true := by
  rw [lru.addAll_fst, lru.applyAdds_char]
  have hC0 : C ≠ 0 := by omega
  have htr : lru.trunc C (lru.dedupKeys ops.reverse) = (lru.dedupKeys ops.reverse).take C := by
    unfold lru.trunc
    rw [if_neg hC0]
  constructor
  · unfold lru.Cache.Len
    dsimp only
    rw [htr, List.length_take]
    omega
  · intro e he
    unfold lru.Cache.Contains
    dsimp only
    rw [htr]
    unfold lru.lookup
    rw [List.find?_isSome]
    exact ⟨e, he, by simp⟩

/-- Witness for C3: capacity 2 with three adds. -/
theorem lru_add_capacity_bound_witness :
    0 < 2 ∧
    ((lru.AddAll (lru.New String Nat 2) [("A", 1), ("B", 2), ("C", 3)]).1.Len ≤ 2 ∧
      ∀ e ∈ (lru.dedupKeys (List.reverse [("A", 1), ("B", 2), ("C", 3)])).take 2,
        (lru.AddAll (lru.New String Nat 2) [("A", 1), ("B", 2), ("C", 3)]).1.Contains e.1
          = true) :=
  ⟨by decide, lru_add_capacity_bound 2 (by decide) [("A", 1), ("B", 2), ("C", 3)]⟩

/-- C5: the eviction callback fires exactly once per evicted key with that
entry's key and value.  During Clear the events are exactly the resident
entries, whose keys are pairwise distinct for any cache built by adds;
and in the concrete capacity-2 scenario adding (A,1),(B,2),(C,3) fires the
callback exactly once, with (A,1), leaving [(C,3),(B,2)] resident. -/
theorem lru_eviction_callback_exact {K V : Type} [DecidableEq K] :
    (∀ (C : Nat) (ops : List (K × V)),
        lru.NodupKeys (lru.AddAll (lru.New K V C) ops).1.entries ∧
        ((lru.AddAll (lru.New K V C) ops).1.Clear).2
          = (lru.AddAll (lru.New K V C) ops).1.entries) ∧
    (lru.AddAll (lru.New String Nat 2) [("A", 1), ("B", 2), ("C", 3)]).2 = [("A", 1)] ∧
    (lru.AddAll (lru.New String Nat 2) [("A", 1), ("B", 2), ("C", 3)]).1.entries
      = [("C", 3), ("B", 2)] := by
  refine ⟨?_, by decide, by decide⟩
  intro C ops
  rw [lru.addAll_fst, lru.applyAdds_char]
  refine ⟨?_, rfl⟩
  unfold lru.Cache.entries
  dsimp only [Option.getD_some]
  exact lru.nodupKeys_of_sublist (lru.trunc_sublist _ _) (lru.nodupKeys_dedupKeys _)

namespace singleflight

variable {α : Type}

theorem step_oob (f : Nat → α) (s : GState α) (t : Nat)
    (ht : s.threads[t]? = none) : step f s t = s := by
  unfold step
  rw [ht]

theorem step_notStarted_none (f : Nat → α) (s : GState α) (t : Nat)
    (ht : s.threads[t]? = some .notStarted) (hreg : s.reg = none) :
    step f s t =
      { calls := s.calls ++ [none], reg := some s.calls.length,
        threads := s.threads.set t (.running s.calls.length),
        execCount := s.execCount } := by
  unfold step
  rw [ht]
  dsimp only
  rw [hreg]

theorem step_notStarted_some (f : Nat → α) (s : GState α) (t c : Nat)
    (ht : s.threads[t]? = some .notStarted) (hreg : s.reg = some c) :
    step f s t = { s with threads := s.threads.set t (.waiting c) } := by
  unfold step
  rw [ht]
  dsimp only
  rw [hreg]

theorem step_running (f : Nat → α) (s : GState α) (t c : Nat)
    (ht : s.threads[t]? = some (.running c)) :
    step f s t =
      { calls := s.calls.set c (some (f t)), reg := s.reg,
        threads := s.threads.set t (.cleanup c (f t)),
        execCount := s.execCount + 1 } := by
  unfold step
  rw [ht]

theorem step_cleanup (f : Nat → α) (s : GState α) (t c : Nat) (o : α)
    (ht : s.threads[t]? = some (.cleanup c o)) :
    step f s t = { s with reg := none, threads := s.threads.set t (.finished o) } := by
  unfold step
  rw [ht]

theorem step_waiting_done (f : Nat → α) (s : GState α) (t c : Nat) (o : α)
    (ht : s.threads[t]? = some (.waiting c)) (hc : s.calls.getD c none = some o) :
    step f s t = { s with threads := s.threads.set t (.finished o) } := by
  unfold step
  rw [ht]
  dsimp only
  rw [hc]

theorem step_waiting_blocked (f : Nat → α) (s : GState α) (t c : Nat)
    (ht : s.threads[t]? = some (.waiting c)) (hc : s.calls.getD c none = none) :
    step f s t = s := by
  unfold step
  rw [ht]
  dsimp only
  rw [hc]

theorem step_finished (f : Nat → α) (s : GState α) (t : Nat) (o : α)
    (ht : s.threads[t]? = some (.finished o)) : step f s t = s := by
  unfold step
  rw [ht]

end singleflight

/-- C4: a full uncontended `Do` (the three atomic steps of one caller)
returns its own `fn`'s outcome verbatim and leaves the registry without a
record for the key, whatever that outcome is; a second caller afterwards
runs its own function afresh — each completed call bumps the execution
count by exactly one, so no result is cached across calls. -/
theorem singleflight_do_verbatim_and_fresh {α : Type} (f : Nat → α)
    (s : singleflight.GState α) (t1 t2 : Nat) (h12 : t1 ≠ t2)
    (h1 : s.threads[t1]? = some .notStarted)
    (h2 : s.threads[t2]? = some .notStarted)
    (hreg : s.reg = none) :
    (singleflight.run f s [t1, t1, t1, t2, t2, t2]).threads[t1]?
        = some (.finished (f t1)) ∧
    (singleflight.run f s [t1, t1, t1, t2, t2, t2]).threads[t2]?
        = some (.finished (f t2)) ∧
    (singleflight.run f s [t1, t1, t1, t2, t2, t2]).reg = none ∧
    (singleflight.run f s [t1, t1, t1, t2, t2, t2]).execCount = s.execCount + 2 := by
  have ht1 : t1 < s.threads.length := by
    by_contra h'
    rw [List.getElem?_eq_none (by omega)] at h1
    cases h1
  have ht2 : t2 < s.threads.length := by
    by_contra h'
    rw [List.getElem?_eq_none (by omega)] at h2
    cases h2
  have e1 : singleflight.step f s t1 =
      { calls := s.calls ++ [none], reg := some s.calls.length,
        threads := s.threads.set t1 (.running s.calls.length),
        execCount := s.execCount } :=
    singleflight.step_notStarted_none f s t1 h1 hreg
  have e2 : singleflight.step f
      { calls := s.calls ++ [none], reg := some s.calls.length,
        threads := s.threads.set t1 (.running s.calls.length),
        execCount := s.execCount } t1 =
      { calls := (s.calls ++ [none]).set s.calls.length (some (f t1)),
        reg := some s.calls.length,
        threads := (s.threads.set t1 (.running s.calls.length)).set t1
          (.cleanup s.calls.length (f t1)),
        execCount := s.execCount + 1 } :=
    singleflight.step_running f _ t1 s.calls.length (List.getElem?_set_self ht1)
  have e3 : singleflight.step f
      { calls := (s.calls ++ [none]).set s.calls.length (some (f t1)),
        reg := some s.calls.length,
        threads := (s.threads.set t1 (.running s.calls.length)).set t1
          (.cleanup s.calls.length (f t1)),
        execCount := s.execCount + 1 } t1 =
      { calls := (s.calls ++ [none]).set s.calls.length (some (f t1)),
        reg := none,
        threads := ((s.threads.set t1 (.running s.calls.length)).set t1
          (.cleanup s.calls.length (f t1))).set t1 (.finished (f t1)),
        execCount := s.execCount + 1 } :=
    singleflight.step_cleanup f _ t1 s.calls.length (f t1)
      (List.getElem?_set_self (by simpa using ht1))
  have e4 : singleflight.step f
      { calls := (s.calls ++ [none]).set s.calls.length (some (f t1)),
        reg := none,
        threads := ((s.threads.set t1 (.running s.calls.length)).set t1
          (.cleanup s.calls.length (f t1))).set t1 (.finished (f t1)),
        execCount := s.execCount + 1 } t2 =
      { calls := ((s.calls ++ [none]).set s.calls.length (some (f t1))) ++ [none],
        reg := some ((s.calls ++ [none]).set s.calls.length (some (f t1))).length,
        threads := (((s.threads.set t1 (.running s.calls.length)).set t1
          (.cleanup s.calls.length (f t1))).set t1 (.finished (f t1))).set t2
          (.running ((s.calls ++ [none]).set s.calls.length (some (f t1))).length),
        execCount := s.execCount + 1 } := by
    refine singleflight.step_notStarted_none f _ t2 ?_ rfl
    show ((((s.threads.set t1 _).set t1 _).set t1 _))[t2]? = _
    rw [List.getElem?_set_ne h12, List.getElem?_set_ne h12, List.getElem?_set_ne h12]
    exact h2
  have e5 : singleflight.step f
      { calls := ((s.calls ++ [none]).set s.calls.length (some (f t1))) ++ [none],
        reg := some ((s.calls ++ [none]).set s.calls.length (some (f t1))).length,
        threads := (((s.threads.set t1 (.running s.calls.length)).set t1
          (.cleanup s.calls.length (f t1))).set t1 (.finished (f t1))).set t2
          (.running ((s.calls ++ [none]).set s.calls.length (some (f t1))).length),
        execCount := s.execCount + 1 } t2 =
      { calls := (((s.calls ++ [none]).set s.calls.length (some (f t1))) ++ [none]).set
          ((s.calls ++ [none]).set s.calls.length (some (f t1))).length (some (f t2)),
        reg := some ((s.calls ++ [none]).set s.calls.length (some (f t1))).length,
        threads := ((((s.threads.set t1 (.running s.calls.length)).set t1
          (.cleanup s.calls.length (f t1))).set t1 (.finished (f t1))).set t2
          (.running ((s.calls ++ [none]).set s.calls.length (some (f t1))).length)).set t2
          (.cleanup ((s.calls ++ [none]).set s.calls.length (some (f t1))).length (f t2)),
        execCount := s.execCount + 1 + 1 } :=
    singleflight.step_running f _ t2 _ (List.getElem?_set_self (by simpa using ht2))
  have e6 : singleflight.step f
      { calls := (((s.calls ++ [none]).set s.calls.length (some (f t1))) ++ [none]).set
          ((s.calls ++ [none]).set s.calls.length (some (f t1))).length (some (f t2)),
        reg := some ((s.calls ++ [none]).set s.calls.length (some (f t1))).length,
        threads := ((((s.threads.set t1 (.running s.calls.length)).set t1
          (.cleanup s.calls.length (f t1))).set t1 (.finished (f t1))).set t2
          (.running ((s.calls ++ [none]).set s.calls.length (some (f t1))).length)).set t2
          (.cleanup ((s.calls ++ [none]).set s.calls.length (some (f t1))).length (f t2)),
        execCount := s.execCount + 1 + 1 } t2 =
      { calls := (((s.calls ++ [none]).set s.calls.length (some (f t1))) ++ [none]).set
          ((s.calls ++ [none]).set s.calls.length (some (f t1))).length (some (f t2)),
        reg := none,
        threads := (((((s.threads.set t1 (.running s.calls.length)).set t1
          (.cleanup s.calls.length (f t1))).set t1 (.finished (f t1))).set t2
          (.running ((s.calls ++ [none]).set s.calls.length (some (f t1))).length)).set t2
          (.cleanup ((s.calls ++ [none]).set s.calls.length (some (f t1))).length (f t2))).set t2
          (.finished (f t2)),
        execCount := s.execCount + 1 + 1 } :=
    singleflight.step_cleanup f _ t2 _ (f t2)
      (List.getElem?_set_self (by simpa using ht2))
  simp only [singleflight.run, List.foldl_cons, List.foldl_nil]
  rw [e1, e2, e3, e4, e5, e6]
  refine ⟨?_, ?_, rfl, rfl⟩
  · show ((((((s.threads.set t1 _).set t1 _).set t1 _).set t2 _).set t2 _).set t2 _)[t1]? = _
    rw [List.getElem?_set_ne (Ne.symm h12), List.getElem?_set_ne (Ne.symm h12),
      List.getElem?_set_ne (Ne.symm h12)]
    exact List.getElem?_set_self (by simpa using ht1)
  · exact List.getElem?_set_self (by simpa using ht2)

/-- Witness for C4 with two threads from the initial state. -/
theorem singleflight_do_verbatim_and_fresh_witness :
    (0 : Nat) ≠ 1 ∧
    (singleflight.run (fun t => t) (singleflight.init Nat 2) [0, 0, 0, 1, 1, 1]).threads[0]?
        = some (.finished 0) ∧
    (singleflight.run (fun t => t) (singleflight.init Nat 2) [0, 0, 0, 1, 1, 1]).threads[1]?
        = some (.finished 1) ∧
    (singleflight.run (fun t => t) (singleflight.init Nat 2) [0, 0, 0, 1, 1, 1]).reg = none ∧
    (singleflight.run (fun t => t) (singleflight.init Nat 2) [0, 0, 0, 1, 1, 1]).execCount
        = (singleflight.init Nat 2).execCount + 2 := by
  refine ⟨by decide, ?_⟩
  exact singleflight_do_verbatim_and_fresh (fun t => t) (singleflight.init Nat 2) 0 1
    (by decide) (by decide) (by decide) (by decide)

namespace singleflight

variable {α : Type}

theorem inv_init (f : Nat → α) (n : Nat) : Inv f n (init α n) := by
  refine ⟨List.length_replicate n _, Or.inl ⟨rfl, rfl, rfl, ?_⟩⟩
  intro t ht
  simp [init, List.getElem?_replicate, ht]

theorem inv_step (f : Nat → α) (n : Nat) (s : GState α) (t : Nat)
    (hinv : Inv f n s) (hok : okStep s t = true) : Inv f n (step f s t) := by
  obtain ⟨hlen, hcases⟩ := hinv
  cases hts : s.threads[t]? with
  | none => rw [step_oob f s t hts]; exact ⟨hlen, hcases⟩
  | some ts =>
    have htlt : t < n := by
      by_contra h'
      rw [List.getElem?_eq_none (by omega)] at hts
      cases hts
    have htlen : t < s.threads.length := by rw [hlen]; exact htlt
    rcases hcases with ⟨hc, hr, he, hall⟩ | ⟨t0, ht0, hphase⟩
    · -- nothing has happened: `t` registers the one call
      have hts0 : ts = .notStarted := Option.some.inj (hts.symm.trans (hall t htlt))
      subst hts0
      rw [step_notStarted_none f s t hts hr]
      unfold Inv
      dsimp only
      refine ⟨by simpa using hlen, Or.inr ⟨t, htlt, Or.inl ⟨?_, ?_, he, ?_, ?_⟩⟩⟩
      · simp [hc]
      · simp [hc]
      · rw [hc]
        exact List.getElem?_set_self htlen
      · intro t' ht' hne
        left
        rw [List.getElem?_set_ne (Ne.symm hne)]
        exact hall t' ht'
    · rcases hphase with ⟨hc, hr, he, ht0s, hall⟩ | ⟨hc, hr, he, ht0s, hall⟩ |
        ⟨hc, hr, he, ht0s, hall⟩
      · -- phase A: fn still running
        by_cases htt0 : t = t0
        · subst htt0
          have hts0 : ts = .running 0 := Option.some.inj (hts.symm.trans ht0s)
          subst hts0
          rw [step_running f s t 0 hts]
          unfold Inv
          dsimp only
          refine ⟨by simpa using hlen, Or.inr ⟨t, htlt, Or.inr (Or.inl ⟨?_, hr, ?_, ?_, ?_⟩)⟩⟩
          · simp [hc]
          · simp [he]
          · exact List.getElem?_set_self htlen
          · intro t' ht' hne
            rw [List.getElem?_set_ne (Ne.symm hne)]
            rcases hall t' ht' hne with h' | h'
            · exact Or.inl h'
            · exact Or.inr (Or.inl h')
        · rcases hall t htlt htt0 with hts' | hts'
          · have hts0 : ts = .notStarted := Option.some.inj (hts.symm.trans hts')
            subst hts0
            rw [step_notStarted_some f s t 0 hts hr]
            unfold Inv
            dsimp only
            refine ⟨by simpa using hlen, Or.inr ⟨t0, ht0, Or.inl ⟨hc, hr, he, ?_, ?_⟩⟩⟩
            · rw [List.getElem?_set_ne htt0]
              exact ht0s
            · intro t' ht' hne
              by_cases ht'' : t' = t
              · subst ht''
                right
                exact List.getElem?_set_self htlen
              · rw [List.getElem?_set_ne (Ne.symm ht'')]
                exact hall t' ht' hne
          · have hts0 : ts = .waiting 0 := Option.some.inj (hts.symm.trans hts')
            subst hts0
            rw [step_waiting_blocked f s t 0 hts (by rw [hc]; rfl)]
            exact ⟨hlen, Or.inr ⟨t0, ht0, Or.inl ⟨hc, hr, he, ht0s, hall⟩⟩⟩
      · -- phase B1: outcome stored, record still registered
        by_cases htt0 : t = t0
        · subst htt0
          have hts0 : ts = .cleanup 0 (f t) := Option.some.inj (hts.symm.trans ht0s)
          subst hts0
          rw [step_cleanup f s t 0 (f t) hts]
          unfold Inv
          dsimp only
          refine ⟨by simpa using hlen, Or.inr ⟨t, htlt, Or.inr (Or.inr ⟨hc, rfl, he, ?_, ?_⟩)⟩⟩
          · exact List.getElem?_set_self htlen
          · intro t' ht' hne
            rw [List.getElem?_set_ne (Ne.symm hne)]
            exact hall t' ht' hne
        · rcases hall t htlt htt0 with hts' | hts' | hts'
          · have hts0 : ts = .notStarted := Option.some.inj (hts.symm.trans hts')
            subst hts0
            rw [step_notStarted_some f s t 0 hts hr]
            unfold Inv
            dsimp only
            refine ⟨by simpa using hlen, Or.inr ⟨t0, ht0, Or.inr (Or.inl ⟨hc, hr, he, ?_, ?_⟩)⟩⟩
            · rw [List.getElem?_set_ne htt0]
              exact ht0s
            · intro t' ht' hne
              by_cases ht'' : t' = t
              · subst ht''
                right; left
                exact List.getElem?_set_self htlen
              · rw [List.getElem?_set_ne (Ne.symm ht'')]
                exact hall t' ht' hne
          · have hts0 : ts = .waiting 0 := Option.some.inj (hts.symm.trans hts')
            subst hts0
            rw [step_waiting_done f s t 0 (f t0) hts (by rw [hc]; rfl)]
            unfold Inv
            dsimp only
            refine ⟨by simpa using hlen, Or.inr ⟨t0, ht0, Or.inr (Or.inl ⟨hc, hr, he, ?_, ?_⟩)⟩⟩
            · rw [List.getElem?_set_ne htt0]
              exact ht0s
            · intro t' ht' hne
              by_cases ht'' : t' = t
              · subst ht''
                right; right
                exact List.getElem?_set_self htlen
              · rw [List.getElem?_set_ne (Ne.symm ht'')]
                exact hall t' ht' hne
          · have hts0 : ts = .finished (f t0) := Option.some.inj (hts.symm.trans hts')
            subst hts0
            rw [step_finished f s t (f t0) hts]
            exact ⟨hlen, Or.inr ⟨t0, ht0, Or.inr (Or.inl ⟨hc, hr, he, ht0s, hall⟩)⟩⟩
      · -- phase B2: record already deleted
        by_cases htt0 : t = t0
        · subst htt0
          have hts0 : ts = .finished (f t) := Option.some.inj (hts.symm.trans ht0s)
          subst hts0
          rw [step_finished f s t (f t) hts]
          exact ⟨hlen, Or.inr ⟨t, htlt, Or.inr (Or.inr ⟨hc, hr, he, ht0s, hall⟩)⟩⟩
        · rcases hall t htlt htt0 with hts' | hts' | hts'
          · -- a late arrival would start a second call: excluded by okStep
            exfalso
            unfold okStep at hok
            rw [hts] at hok
            have hts0 : ts = .notStarted := Option.some.inj (hts.symm.trans hts')
            subst hts0
            rw [hr, hc] at hok
            simp at hok
          · have hts0 : ts = .waiting 0 := Option.some.inj (hts.symm.trans hts')
            subst hts0
            rw [step_waiting_done f s t 0 (f t0) hts (by rw [hc]; rfl)]
            unfold Inv
            dsimp only
            refine ⟨by simpa using hlen, Or.inr ⟨t0, ht0, Or.inr (Or.inr ⟨hc, hr, he, ?_, ?_⟩)⟩⟩
            · rw [List.getElem?_set_ne htt0]
              exact ht0s
            · intro t' ht' hne
              by_cases ht'' : t' = t
              · subst ht''
                right; right
                exact List.getElem?_set_self htlen
              · rw [List.getElem?_set_ne (Ne.symm ht'')]
                exact hall t' ht' hne
          · have hts0 : ts = .finished (f t0) := Option.some.inj (hts.symm.trans hts')
            subst hts0
            rw [step_finished f s t (f t0) hts]
            exact ⟨hlen, Or.inr ⟨t0, ht0, Or.inr (Or.inr ⟨hc, hr, he, ht0s, hall⟩)⟩⟩

theorem inv_run (f : Nat → α) (n : Nat) : ∀ (tr : List Nat) (s : GState α),
    Inv f n s → concOK f s tr = true → Inv f n (run f s tr) := by
  intro tr
  induction tr with
  | nil => intro s hinv _; exact hinv
  | cons t ts ih =>
    intro s hinv hok
    simp only [concOK, Bool.and_eq_true] at hok
    obtain ⟨h1, h2⟩ := hok
    exact ih (step f s t) (inv_step f n s t hinv h1) h2

end singleflight

/-- C1: for N ≥ 1 callers invoking `Do` on the same key concurrently —
i.e. along any schedule in which every caller performs its registry check
while the single in-flight record is still registered (`concOK`), the
formal reading of "N concurrent invocations" — once all callers have
returned, `fn` has executed exactly once, and every caller returns the
same outcome `f t0` produced by that single execution (by its owner
thread `t0`). -/
theorem singleflight_do_coalesces {α : Type} (f : Nat → α) (n : Nat) (trace : List Nat)
    (hn : 0 < n)
    (hconc : singleflight.concOK f (singleflight.init α n) trace = true)
    (hfin : singleflight.allFinished (singleflight.run f (singleflight.init α n) trace)
      = true) :
    ∃ t0, t0 < n ∧
      (singleflight.run f (singleflight.init α n) trace).execCount = 1 ∧
      ∀ t, t < n →
        (singleflight.run f (singleflight.init α n) trace).threads[t]?
          = some (.finished (f t0)) := by
  have hinv := singleflight.inv_run f n trace (singleflight.init α n)
    (singleflight.inv_init f n) hconc
  obtain ⟨hlen, hcase⟩ := hinv
  unfold singleflight.allFinished at hfin
  have hfin' := List.all_eq_true.mp hfin
  rcases hcase with ⟨-, -, -, hall⟩ | ⟨t0, ht0, hphase⟩
  · exfalso
    have h0 := hall 0 hn
    have hmem := List.getElem?_mem h0
    have := hfin' _ hmem
    simp at this
  · rcases hphase with ⟨-, -, -, ht0s, -⟩ | ⟨-, -, -, ht0s, -⟩ | ⟨-, -, he, ht0s, hall⟩
    · exfalso
      have hmem := List.getElem?_mem ht0s
      have := hfin' _ hmem
      simp at this
    · exfalso
      have hmem := List.getElem?_mem ht0s
      have := hfin' _ hmem
      simp at this
    · refine ⟨t0, ht0, he, ?_⟩
      intro t ht
      by_cases htt0 : t = t0
      · subst htt0
        exact ht0s
      · rcases hall t ht htt0 with h' | h' | h'
        · exfalso
          have hmem := List.getElem?_mem h'
          have := hfin' _ hmem
          simp at this
        · exfalso
          have hmem := List.getElem?_mem h'
          have := hfin' _ hmem
          simp at this
        · exact h'

/-- Witness for C1: two concurrent callers, the second joining while the
first's call is registered. -/
theorem singleflight_do_coalesces_witness :
    ∃ t0, t0 < 2 ∧
      (singleflight.run (fun t => t) (singleflight.init Nat 2) [0, 1, 0, 0, 1]).execCount = 1 ∧
      ∀ t, t < 2 →
        (singleflight.run (fun t => t) (singleflight.init Nat 2) [0, 1, 0, 0, 1]).threads[t]?
          = some (.finished ((fun t => t) t0)) :=
  singleflight_do_coalesces (fun t => t) 2 [0, 1, 0, 0, 1]
    (by decide) (by decide) (by decide)
